import Mathlib

/-!
Verification of the `rnm` process supervisor (`src/rnm/process/supervisor.py`)
against its specification.  The Python code is shallowly embedded: pure
fragments become Lean functions, the event-emitting statements of each
method become explicit event/trace lists, wall-clock times are `Int`
"time units", and the per-service mutable `ProcessState` dataclass becomes
a Lean structure threaded explicitly.
-/

namespace RNM

/-- Mirror of `ServiceDefinition` (`src/rnm/process/services.py`), restricted
to the fields the supervisor logic reads: `name` and `depends_on`.
`health_check` presence is tracked on the runtime state below. -/
structure ServiceDefinition where
  name : String
  dependsOn : List String
deriving DecidableEq, Repr

/-- Lifecycle states of `ProcessState.state`
(`"stopped" | "starting" | "running" | "failed" | "stopping"`). -/
inductive SvcState
  | stopped
  | starting
  | running
  | stopping
  | failed
deriving DecidableEq, Repr

/-- The `detail` argument of `Supervisor._emit` is heterogeneous in Python
(`None`, a string, or an integer exit code). -/
inductive Detail
  | none
  | str (s : String)
  | int (i : Int)
deriving DecidableEq, Repr

/-- One observer event, as delivered by `Supervisor._emit(event, name, detail)`
to every registered callback. -/
structure Event where
  kind : String
  name : String
  detail : Detail
deriving DecidableEq, Repr

/-- One log record produced through the `logging` module (distinct from the
observer-event channel). -/
structure LogRecord where
  loggerName : String
  message : String
deriving DecidableEq, Repr

/-! ## Dependency resolver: `Supervisor._dependency_sort` -/

/-- State threaded through the depth-first traversal of
`_dependency_sort`: the Python closure mutates a `visited` set and a
`result` list. -/
structure DfsState where
  visited : List String
  result : List ServiceDefinition
deriving DecidableEq, Repr

/-- `by_name = {s.name: s for s in services}` followed by `by_name.get(name)`.
A Python dict comprehension keeps the last binding for a duplicated key,
hence lookup is first match in the reversed list. -/
def byNameGet (services : List ServiceDefinition) (name : String) :
    Option ServiceDefinition :=
  services.reverse.find? (fun s => s.name == name)

/-- All names the traversal can ever encounter: the service names plus every
name mentioned in a `depends_on` list. -/
def univNames (services : List ServiceDefinition) : List String :=
  services.map (fun s => s.name) ++ services.flatMap (fun s => s.dependsOn)

/-- The inner `visit(name)` closure of `_dependency_sort`:

    if name in visited: return
    visited.add(name)
    svc = by_name.get(name)
    if svc is None: return
    for dep in svc.depends_on: visit(dep)
    result.append(svc)

The `fuel` argument is an upper bound on the recursion depth, an artifact of
the embedding only: every nested `visit` level that recurses adds one fresh
name from `univNames` to `visited`, so nesting never exceeds
`(univNames services).length`, and with the fuel chosen in
`dependency_sort` the `0` branch is unreachable (the correctness proofs
below carry this bound as the invariant `fuelOK`). -/
def visit (services : List ServiceDefinition) :
    Nat → String → DfsState → DfsState
  | 0, _, st => st
  | fuel + 1, name, st =>
    if name ∈ st.visited then st
    else
      match byNameGet services name with
      | Option.none => ⟨name :: st.visited, st.result⟩
      | Option.some svc =>
        let st2 := svc.dependsOn.foldl
          (fun s d => visit services fuel d s) ⟨name :: st.visited, st.result⟩
        ⟨st2.visited, st2.result ++ [svc]⟩

/-- Fuel strictly exceeding the number of names reachable by the traversal. -/
def dfsFuel (services : List ServiceDefinition) : Nat :=
  (univNames services).length + 1

/-- `Supervisor._dependency_sort`: run `visit` over each service name in
input order and return the accumulated `result` list. -/
def dependency_sort (services : List ServiceDefinition) :
    List ServiceDefinition :=
  (services.foldl
    (fun st s => visit services (dfsFuel services) s.name st)
    ⟨[], []⟩).result

/-- `Supervisor.start_services` launches services in exactly the order
produced by `_dependency_sort`, one at a time; this is the launch order
(names) it uses.  No validation step exists between the sort and the launch
loop. -/
def start_services_order (services : List ServiceDefinition) : List String :=
  (dependency_sort services).map (fun s => s.name)

/-! ## Runtime model: `ProcessState`, config, and the lifecycle methods -/

/-- The `asyncio.subprocess.Process` handle as the supervisor observes it:
only `returncode` (None while the process is alive) matters to the
supervisor's control flow. -/
structure ProcHandle where
  returncode : Option Int
deriving DecidableEq, Repr

/-- Mirror of the `ProcessState` dataclass.  `process` is `none` when no OS
process was ever spawned.  `hasHealthCheck` records whether the owning
`ServiceDefinition` carries a `health_check` callable. -/
structure ProcessState where
  name : String
  process : Option ProcHandle
  state : SvcState
  restart_count : Nat
  last_restart : Int
  hasHealthCheck : Bool
deriving DecidableEq, Repr

/-- `restart_policy` literal of `ProcessConfig` (`config/schema.py`). -/
inductive RestartPolicy
  | always
  | onFailure
  | never
deriving DecidableEq, Repr

/-- The supervision-relevant fields of `ProcessConfig`
(`config/schema.py`, all validated non-negative by pydantic, so counts are
`Nat` and durations `Int` time units). -/
structure ProcessConfig where
  restart_policy : RestartPolicy
  restart_delay : Int
  max_restarts : Nat
  restart_window : Int
deriving DecidableEq, Repr

/-- What `_watch_process` decides to do after the watched process exits. -/
inductive WatchOutcome
  | noAction
      -- supervisor already shut down (`if not self.running: return`)
  | noRestart
      -- restart policy forbids a restart
  | abandoned
      -- max-restarts limit hit: `max_restarts` emitted, give up
  | restartScheduled (delay : Int)
      -- sleep `delay`, then re-launch via `_start_service`
deriving DecidableEq, Repr

/-- `Supervisor._watch_process` after `await ps.process.wait()` returned
`returncode` at wall-clock time `now` (the process handle's `returncode`
is set by the completed `wait()`). Returns the updated `ProcessState`, the
events emitted, and the decision taken. -/
def watch_process (cfg : ProcessConfig) (running : Bool) (ps : ProcessState)
    (returncode : Int) (now : Int) :
    ProcessState × List Event × WatchOutcome :=
  if !running then ⟨ps, [], WatchOutcome.noAction⟩
  else
    let ps1 : ProcessState :=
      { ps with state := SvcState.failed,
                process := Option.some ⟨Option.some returncode⟩ }
    let exitEv : Event := ⟨"exit", ps.name, Detail.int returncode⟩
    if cfg.restart_policy = RestartPolicy.never then
      ⟨ps1, [exitEv], WatchOutcome.noRestart⟩
    else if cfg.restart_policy = RestartPolicy.onFailure ∧ returncode = 0 then
      ⟨ps1, [exitEv], WatchOutcome.noRestart⟩
    else
      let ps2 : ProcessState :=
        if now - ps1.last_restart > cfg.restart_window then
          { ps1 with restart_count := 0 }
        else ps1
      if cfg.max_restarts > 0 ∧ ps2.restart_count ≥ cfg.max_restarts then
        ⟨ps2, [exitEv, ⟨"max_restarts", ps.name, Detail.none⟩],
          WatchOutcome.abandoned⟩
      else
        ⟨{ ps2 with restart_count := ps2.restart_count + 1,
                    last_restart := now },
          [exitEv], WatchOutcome.restartScheduled cfg.restart_delay⟩

/-- The unconditional opening of `Supervisor._start_service` (run when a
scheduled restart fires while the supervisor is still running): the state
becomes `starting` and a `state_change` event is emitted. -/
def start_service_begin (ps : ProcessState) : ProcessState × Event :=
  ⟨{ ps with state := SvcState.starting },
    ⟨"state_change", ps.name, Detail.str "starting"⟩⟩

/-! ## Output capture: `Supervisor._read_output` -/

/-- Python `str.rstrip()`: drop trailing whitespace. -/
def rstrip (s : String) : String :=
  ((s.data.reverse.dropWhile Char.isWhitespace).reverse).asString

/-- `Supervisor._read_output(name, stream, label)`: the stream is modelled
as the list of decoded lines `readline` yields before EOF.  Each line is
right-stripped; non-empty text produces one log record on logger
`"rnm.<name>"` with the text prefixed by `"[<label>] "`, and one observer
event `("output", name, text)`. -/
def read_output (name : String) (lines : List String) (label : String) :
    List Event × List LogRecord :=
  match lines with
  | [] => ⟨[], []⟩
  | line :: rest =>
    let text := rstrip line
    let tail := read_output name rest label
    if text = "" then tail
    else
      ⟨⟨"output", name, Detail.str text⟩ :: tail.1,
        ⟨"rnm." ++ name, "[" ++ label ++ "] " ++ text⟩ :: tail.2⟩

/-! ## Health-check scan: one iteration of `Supervisor._health_check_loop` -/

/-- Outcome of `await ps.service.health_check()`: returned True, returned
False, or raised. -/
inductive HealthResult
  | healthy
  | unhealthy
  | error
deriving DecidableEq, Repr

/-- One pass of the `for name, ps in self.processes.items():` body inside
`_health_check_loop`, with `probe` giving each service's check outcome.
The loop body only reads the table and emits; it assigns no field, so the
table comes back as iterated. -/
def health_scan (table : List ProcessState) (probe : String → HealthResult) :
    List ProcessState × List Event :=
  ⟨table,
    table.flatMap (fun ps =>
      if ps.state = SvcState.running ∧ ps.hasHealthCheck then
        match probe ps.name with
        | HealthResult.healthy => []
        | HealthResult.unhealthy => [⟨"unhealthy", ps.name, Detail.none⟩]
        | HealthResult.error => [⟨"health_error", ps.name, Detail.none⟩]
      else [])⟩

/-! ## Stopping: `Supervisor._stop_service` and `Supervisor.stop_all` -/

/-- The grace period hard-coded in `asyncio.wait_for(ps.process.wait(),
timeout=10)`. -/
def gracePeriod : Nat := 10

/-- Interactions of `_stop_service` with the OS process, in program order. -/
inductive StopAction
  | terminate (name : String)
      -- `ps.process.terminate()`
  | waitGrace (name : String) (timeout : Nat) (timedOut : Bool)
      -- `asyncio.wait_for(ps.process.wait(), timeout)`; `timedOut` records
      -- whether `TimeoutError` was raised
  | kill (name : String)
      -- `ps.process.kill()`
  | waitConfirm (name : String)
      -- the bare `await ps.process.wait()` after a kill
deriving DecidableEq, Repr

/-- A point in the observable behaviour of the stop sequence: either an
observer event or an OS interaction. -/
inductive TraceItem
  | ev (e : Event)
  | act (a : StopAction)
deriving DecidableEq, Repr

/-- The service name a trace item concerns. -/
def TraceItem.svcName : TraceItem → String
  | TraceItem.ev e => e.name
  | TraceItem.act (StopAction.terminate n) => n
  | TraceItem.act (StopAction.waitGrace n _ _) => n
  | TraceItem.act (StopAction.kill n) => n
  | TraceItem.act (StopAction.waitConfirm n) => n

/-- `Supervisor._stop_service(name)`.  `exitsInGrace` is whether the process
exits within the grace period (so `wait_for` returns instead of raising
`TimeoutError`); `exitCode` is the code the OS reports once it is dead.
When the process is absent or already exited the entire body is skipped. -/
def stop_service (ps : ProcessState) (exitsInGrace : Bool) (exitCode : Int) :
    ProcessState × List TraceItem :=
  match ps.process with
  | Option.none => ⟨ps, []⟩
  | Option.some h =>
    if h.returncode = Option.none then
      ⟨{ ps with state := SvcState.stopped,
                 process := Option.some ⟨Option.some exitCode⟩ },
        [TraceItem.ev ⟨"state_change", ps.name, Detail.str "stopping"⟩,
         TraceItem.act (StopAction.terminate ps.name)] ++
        (if exitsInGrace then
          [TraceItem.act (StopAction.waitGrace ps.name gracePeriod false)]
        else
          [TraceItem.act (StopAction.waitGrace ps.name gracePeriod true),
           TraceItem.act (StopAction.kill ps.name),
           TraceItem.act (StopAction.waitConfirm ps.name)]) ++
        [TraceItem.ev ⟨"state_change", ps.name, Detail.str "stopped"⟩]⟩
    else ⟨ps, []⟩

/-- Supervisor state relevant to shutdown: the process table in insertion
(= start) order — a Python dict preserves insertion order — plus the
`running` flag and whether the health task is alive. -/
structure Supervisor where
  processes : List ProcessState
  running : Bool
  healthTaskActive : Bool
deriving DecidableEq, Repr

/-- `Supervisor.stop_all()`: clear `running`, cancel the health task, then
`for name in reversed(list(self.processes.keys())): await
self._stop_service(name)` — strictly sequential, each iteration touching
only its own table entry, so the loop is the per-entry `stop_service` over
the reversed table with traces concatenated in iteration order.  `env`
gives each process's behaviour (exits within grace?, exit code). -/
def stop_all (sup : Supervisor) (env : String → Bool × Int) :
    Supervisor × List TraceItem :=
  let stepped := sup.processes.reverse.map
    (fun ps => stop_service ps (env ps.name).1 (env ps.name).2)
  ⟨{ processes := (stepped.map Prod.fst).reverse,
     running := false,
     healthTaskActive := false },
    (stepped.map Prod.snd).flatten⟩

/-! ## Derived notions used by the correctness statements -/

/-- The dependency edge relation of a descriptor batch: `depEdge services a b`
holds when some descriptor named `a` lists `b` in its `depends_on`.  The
transitive closure of this relation is the "transitive dependencies" of the
specification. -/
def depEdge (services : List ServiceDefinition) (a b : String) : Prop :=
  ∃ s ∈ services, s.name = a ∧ b ∈ s.dependsOn

/-- Position of the first occurrence of a name in a list (the "index" of the
specification's ordering property). -/
def idx : List String → String → Nat
  | [], _ => 0
  | b :: t, a => if b = a then 0 else idx t a + 1

/-- Names of the descriptors already placed in the traversal result. -/
def resultNames (st : DfsState) : List String :=
  st.result.map (fun s => s.name)

/-- A name is grey when the traversal has entered it (`visited`) but not yet
placed it in `result` — exactly the names on the recursion stack, plus
dangling names (which never leave this set). -/
def grey (st : DfsState) (v : String) : Prop :=
  v ∈ st.visited ∧ v ∉ resultNames st

/-- Invariant of the traversal state: placed names are visited, every placed
descriptor has all of its dependencies placed strictly earlier, placed
names are distinct, and placed descriptors come from the input batch. -/
structure DfsInv (services : List ServiceDefinition) (st : DfsState) : Prop where
  res_sub_vis : ∀ n ∈ resultNames st, n ∈ st.visited
  topo : ∀ i (h : i < st.result.length), ∀ d ∈ (st.result.get ⟨i, h⟩).dependsOn,
    d ∈ (st.result.take i).map (fun s => s.name)
  nodupNames : (resultNames st).Nodup
  res_mem : ∀ x ∈ st.result, x ∈ services

/-- Contract of one `visit name` call: visited grows, the result is extended
at the back, the grey set is unchanged, the target name ends up placed, and
the invariant is preserved. -/
structure VisitOut (services : List ServiceDefinition) (name : String)
    (stIn stOut : DfsState) : Prop where
  vis_mono : ∀ v ∈ stIn.visited, v ∈ stOut.visited
  res_ext : ∃ ext, stOut.result = stIn.result ++ ext
  grey_iff : ∀ v, grey stOut v ↔ grey stIn v
  placed : name ∈ resultNames stOut
  inv : DfsInv services stOut

/-- Trace of a run of consecutive `_stop_service` calls over a segment of
the process table, in iteration order. -/
def blockTrace (l : List ProcessState) (env : String → Bool × Int) :
    List TraceItem :=
  (l.map (fun ps => (stop_service ps (env ps.name).1 (env ps.name).2).2)).flatten

/-! Concrete descriptor batches exercising the resolver. -/

/-- Two descriptors forming a dependency cycle. -/
def svcCycA : ServiceDefinition := ⟨"a", ["b"]⟩

/-- Second member of the cycle. -/
def svcCycB : ServiceDefinition := ⟨"b", ["a"]⟩

/-- A descriptor whose dependency name occurs nowhere in the batch. -/
def svcDangling : ServiceDefinition := ⟨"a", ["ghost"]⟩

/-! # Theorems -/

/-- C1: the specification demands that the resolver detect and fail on a
dependency cycle, reporting the member names.  The code violates this: on
the two-cycle `a ↔ b` the traversal terminates (the visited set stops the
recursion) and silently returns the full batch in the order `[b, a]` — its
return type is a plain list with no failure channel at all, so no cycle is
ever reported and `start_services` proceeds to launch both members. -/
theorem dependency_sort_cycle_silent :
    dependency_sort [svcCycA, svcCycB] = [svcCycB, svcCycA] ∧
    start_services_order [svcCycA, svcCycB] = ["b", "a"] := by
  constructor <;> rfl

/-- C3: the specification demands that a dangling `dependsOn` reference be
detected before any process is launched and be fatal to `startServices`.
The code violates this: with a single descriptor `a` depending on the
absent name `ghost`, the resolver silently ignores `ghost`
(`by_name.get` returns `None` and `visit` just returns) and
`start_services` launches `a` — no error is raised anywhere. -/
theorem dangling_dep_launched :
    dependency_sort [svcDangling] = [svcDangling] ∧
    start_services_order [svcDangling] = ["a"] := by
  constructor <;> rfl

/-- C6 counterexample: the observer event produced for a captured line is
`("output", name, text)` — it carries no stream tag.  Reading the line
`"boom\n"` from stderr produces exactly the same observer events as
reading it from stdout, and the single event mentions only the text, so
observers cannot recover the stream name, refuting the claim that the
`output` event is tagged with the stream it was read from. -/
theorem read_output_untagged_cex :
    (read_output "svc" ["boom\n"] "stderr").1 =
      (read_output "svc" ["boom\n"] "stdout").1 ∧
    (read_output "svc" ["boom\n"] "stderr").1 =
      [⟨"output", "svc", Detail.str "boom"⟩] := by
  constructor <;> rfl

/-- C6 (amended): every captured line that is non-empty after stripping
trailing whitespace is forwarded to observers as an `output` event carrying
the stripped text (and nothing identifying the stream); the stream label
appears only in the corresponding log record, prefixed as `"[label] "`. -/
theorem read_output_events (name : String) (lines : List String)
    (label : String) :
    (read_output name lines label).1 =
      ((lines.map rstrip).filter (fun t => t ≠ "")).map
        (fun t => ⟨"output", name, Detail.str t⟩) ∧
    (read_output name lines label).2 =
      ((lines.map rstrip).filter (fun t => t ≠ "")).map
        (fun t => ⟨"rnm." ++ name, "[" ++ label ++ "] " ++ t⟩) := by
  induction lines with
  | nil => exact ⟨rfl, rfl⟩
  | cons line rest ih =>
    by_cases hempty : rstrip line = ""
    · simpa [read_output, hempty] using ih
    · simp [read_output, hempty, ih.1, ih.2]

/-- C9: one iteration of the health-check scan is purely advisory: the
process table (in particular every service's `state`) is returned exactly
as it was, every emitted event is `unhealthy` or `health_error` (never a
`state_change`, and no restart is initiated), a `Running` service with a
health check whose probe fails gets an `unhealthy` event, and one whose
probe raises gets a `health_error` event. -/
theorem health_scan_advisory (table : List ProcessState)
    (probe : String → HealthResult) :
    (health_scan table probe).1 = table ∧
    (∀ e ∈ (health_scan table probe).2,
      e.kind = "unhealthy" ∨ e.kind = "health_error") ∧
    (∀ ps ∈ table, ps.state = SvcState.running → ps.hasHealthCheck = true →
      probe ps.name = HealthResult.unhealthy →
      (⟨"unhealthy", ps.name, Detail.none⟩ : Event) ∈
        (health_scan table probe).2) ∧
    (∀ ps ∈ table, ps.state = SvcState.running → ps.hasHealthCheck = true →
      probe ps.name = HealthResult.error →
      (⟨"health_error", ps.name, Detail.none⟩ : Event) ∈
        (health_scan table probe).2) := by
  refine ⟨rfl, ?_, ?_, ?_⟩
  · intro e he
    rcases List.mem_flatMap.mp he with ⟨ps, _, hin⟩
    by_cases hc : ps.state = SvcState.running ∧ ps.hasHealthCheck
    · rcases hprobe : probe ps.name with _ | _ | _ <;>
        simp [hc, hprobe] at hin <;> simp [hin]
    · simp [hc] at hin
  · intro ps hps hrun hchk hprobe
    exact List.mem_flatMap.mpr ⟨ps, hps, by simp [hrun, hchk, hprobe]⟩
  · intro ps hps hrun hchk hprobe
    exact List.mem_flatMap.mpr ⟨ps, hps, by simp [hrun, hchk, hprobe]⟩

/-- C9 witness: a concrete `Running` service with a failing probe receives
an `unhealthy` event while the table comes back unchanged. -/
theorem health_scan_advisory_witness :
    (health_scan [⟨"x", Option.some ⟨Option.none⟩, SvcState.running, 0, 0,
        true⟩] (fun _ => HealthResult.unhealthy)).1 =
      [⟨"x", Option.some ⟨Option.none⟩, SvcState.running, 0, 0, true⟩] ∧
    (⟨"unhealthy", "x", Detail.none⟩ : Event) ∈
      (health_scan [⟨"x", Option.some ⟨Option.none⟩, SvcState.running, 0, 0,
        true⟩] (fun _ => HealthResult.unhealthy)).2 :=
  ⟨(health_scan_advisory _ _).1,
    (health_scan_advisory
        [⟨"x", Option.some ⟨Option.none⟩, SvcState.running, 0, 0, true⟩]
        (fun _ => HealthResult.unhealthy)).2.2.1
      ⟨"x", Option.some ⟨Option.none⟩, SvcState.running, 0, 0, true⟩
      (by simp) rfl rfl rfl⟩

/-- C10: when `stop_all` reaches a service whose OS process is absent
(never spawned) or has already exited (`returncode` set — e.g. a `Failed`
service), `_stop_service` is a complete no-op: the guard
`ps.process and ps.process.returncode is None` fails, so no signal is
sent, no event is emitted, and the recorded state is unchanged — a
`Failed` service stays `Failed` rather than becoming `Stopped`. -/
theorem stop_service_dead_noop (ps : ProcessState) (eg : Bool) (ec : Int)
    (hdead : ps.process = Option.none ∨
      ∃ h c, ps.process = Option.some h ∧ h.returncode = Option.some c) :
    stop_service ps eg ec = ⟨ps, []⟩ ∧
    (stop_service ps eg ec).1.state = ps.state := by
  rcases hdead with h | ⟨h, c, hp, hr⟩
  · constructor <;> simp [stop_service, h]
  · constructor <;> simp [stop_service, hp, hr]

/-- C10 witness: stopping a concrete `Failed` service whose process exited
with code 1 changes nothing and emits nothing. -/
theorem stop_service_dead_noop_witness :
    stop_service ⟨"x", Option.some ⟨Option.some 1⟩, SvcState.failed, 0, 0,
        false⟩ true 0 =
      ⟨⟨"x", Option.some ⟨Option.some 1⟩, SvcState.failed, 0, 0, false⟩,
        []⟩ :=
  (stop_service_dead_noop _ _ _
    (Or.inr ⟨⟨Option.some 1⟩, 1, rfl, rfl⟩)).1

/-- C4: when the restart machinery is reached (supervisor running, policy
not `never`, and a non-zero code under `on-failure`): if a non-zero
max-restarts limit is configured and the counter has reached it within the
current restart window, the service stays `Failed`, exactly one
`max_restarts` event is emitted, and no relaunch is scheduled; if instead
the elapsed time since the last restart exceeds the restart window, the
counter resets (ending up at 1 after the increment for this relaunch), no
`max_restarts` event is emitted, and a restart is scheduled after the
configured delay. -/
theorem max_restarts_abandon (cfg : ProcessConfig) (ps : ProcessState)
    (rc now : Int)
    (hpol : cfg.restart_policy ≠ RestartPolicy.never)
    (hof : cfg.restart_policy = RestartPolicy.onFailure → rc ≠ 0) :
    (cfg.max_restarts > 0 → ps.restart_count ≥ cfg.max_restarts →
      now - ps.last_restart ≤ cfg.restart_window →
      (watch_process cfg true ps rc now).1.state = SvcState.failed ∧
      (watch_process cfg true ps rc now).2.1.countP
          (fun e => e.kind == "max_restarts") = 1 ∧
      (watch_process cfg true ps rc now).2.2 = WatchOutcome.abandoned) ∧
    (now - ps.last_restart > cfg.restart_window →
      (watch_process cfg true ps rc now).1.restart_count = 1 ∧
      (watch_process cfg true ps rc now).2.1.countP
          (fun e => e.kind == "max_restarts") = 0 ∧
      (watch_process cfg true ps rc now).2.2 =
        WatchOutcome.restartScheduled cfg.restart_delay) := by
  have hof2 : ¬(cfg.restart_policy = RestartPolicy.onFailure ∧ rc = 0) :=
    fun hc => hof hc.1 hc.2
  constructor
  · intro hmax hge hwin
    have hwin2 : ¬(now - ps.last_restart > cfg.restart_window) :=
      not_lt.mpr hwin
    refine ⟨?_, ?_, ?_⟩ <;>
      simp [watch_process, hpol, hof2, hwin2, hmax, hge]
  · intro hwin
    have hnot : ¬(0 < cfg.max_restarts ∧ cfg.max_restarts = 0) := by omega
    refine ⟨?_, ?_, ?_⟩ <;>
      simp [watch_process, hpol, hof2, hwin, hnot]

/-- C4 witness: with `on-failure`, max restarts 1, window 300: a service
whose counter is already 1, exiting with code 1 one time unit after its
last restart, is abandoned with exactly one `max_restarts` event; the same
exit 301 time units later resets the counter and schedules a restart. -/
theorem max_restarts_abandon_witness :
    ((watch_process ⟨RestartPolicy.onFailure, 3, 1, 300⟩ true
        ⟨"x", Option.some ⟨Option.none⟩, SvcState.running, 1, 100, false⟩
        1 101).1.state = SvcState.failed ∧
      (watch_process ⟨RestartPolicy.onFailure, 3, 1, 300⟩ true
        ⟨"x", Option.some ⟨Option.none⟩, SvcState.running, 1, 100, false⟩
        1 101).2.1.countP (fun e => e.kind == "max_restarts") = 1 ∧
      (watch_process ⟨RestartPolicy.onFailure, 3, 1, 300⟩ true
        ⟨"x", Option.some ⟨Option.none⟩, SvcState.running, 1, 100, false⟩
        1 101).2.2 = WatchOutcome.abandoned) ∧
    ((watch_process ⟨RestartPolicy.onFailure, 3, 1, 300⟩ true
        ⟨"x", Option.some ⟨Option.none⟩, SvcState.running, 1, 100, false⟩
        1 402).2.2 = WatchOutcome.restartScheduled 3) :=
  ⟨(max_restarts_abandon ⟨RestartPolicy.onFailure, 3, 1, 300⟩
      ⟨"x", Option.some ⟨Option.none⟩, SvcState.running, 1, 100, false⟩
      1 101 (by decide) (fun _ => by decide)).1
      (by decide) (by decide) (by decide),
    ((max_restarts_abandon ⟨RestartPolicy.onFailure, 3, 1, 300⟩
      ⟨"x", Option.some ⟨Option.none⟩, SvcState.running, 1, 100, false⟩
      1 402 (by decide) (fun _ => by decide)).2 (by decide)).2.2⟩

/-- C5 counterexample: under policy `on-failure` a non-zero exit is NOT
always restarted — with max restarts 1 and the counter already at 1
within the window, a service exiting with code 1 is abandoned
(`max_restarts`) instead of being relaunched after the configured delay
of 3. -/
theorem on_failure_no_restart_cex :
    (watch_process ⟨RestartPolicy.onFailure, 3, 1, 300⟩ true
        ⟨"x", Option.some ⟨Option.none⟩, SvcState.running, 1, 100, false⟩
        1 101).2.2 = WatchOutcome.abandoned ∧
    (watch_process ⟨RestartPolicy.onFailure, 3, 1, 300⟩ true
        ⟨"x", Option.some ⟨Option.none⟩, SvcState.running, 1, 100, false⟩
        1 101).2.2 ≠ WatchOutcome.restartScheduled 3 := by
  constructor <;> decide

/-- C5 (amended): under policy `on-failure`, an unexpected exit with code 0
while the supervisor runs is never restarted; an exit with non-zero code
is restarted — scheduled after the configured restart delay, the relaunch
transitioning the service back to `Starting` — provided the max-restarts
limit is unlimited (0) or not yet reached by the (window-adjusted)
counter; and under policy `never` no restart is ever scheduled, whatever
the exit code, time, or supervisor flag. -/
theorem on_failure_restart_amended (cfg : ProcessConfig) (ps : ProcessState)
    (rc now : Int) (hpol : cfg.restart_policy = RestartPolicy.onFailure) :
    ((watch_process cfg true ps 0 now).2.2 = WatchOutcome.noRestart) ∧
    (rc ≠ 0 →
      (cfg.max_restarts = 0 ∨
        (if now - ps.last_restart > cfg.restart_window then 0
          else ps.restart_count) < cfg.max_restarts) →
      (watch_process cfg true ps rc now).2.2 =
        WatchOutcome.restartScheduled cfg.restart_delay ∧
      (start_service_begin (watch_process cfg true ps rc now).1).1.state =
        SvcState.starting) ∧
    (∀ (cfg2 : ProcessConfig) (running : Bool) (ps2 : ProcessState)
        (rc2 now2 d : Int), cfg2.restart_policy = RestartPolicy.never →
      (watch_process cfg2 running ps2 rc2 now2).2.2 ≠
        WatchOutcome.restartScheduled d) := by
  have hpolne : cfg.restart_policy ≠ RestartPolicy.never := by
    rw [hpol]; exact fun h => by cases h
  refine ⟨?_, ?_, ?_⟩
  · simp [watch_process, hpolne, hpol]
  · intro hrc hlim
    have hof2 : ¬(cfg.restart_policy = RestartPolicy.onFailure ∧ rc = 0) :=
      fun hc => hrc hc.2
    by_cases hwin : now - ps.last_restart > cfg.restart_window
    · have hnot : ¬(0 < cfg.max_restarts ∧ cfg.max_restarts = 0) := by
        omega
      constructor <;>
        simp [watch_process, start_service_begin, hpolne, hof2, hwin, hnot]
    · have hlim2 : ¬(cfg.max_restarts > 0 ∧
          ps.restart_count ≥ cfg.max_restarts) := by
        simp [hwin] at hlim; omega
      constructor <;>
        simp [watch_process, start_service_begin, hpolne, hof2, hwin, hlim2]
  · intro cfg2 running ps2 rc2 now2 d hnever
    cases running
    · simp [watch_process]
    · simp [watch_process, hnever]

/-- C5 witness: with `on-failure` (delay 3, max 10), exit code 0 is not
restarted, and exit code 1 with a fresh counter schedules a restart after
delay 3 whose relaunch re-enters `Starting`. -/
theorem on_failure_restart_amended_witness :
    ((watch_process ⟨RestartPolicy.onFailure, 3, 10, 300⟩ true
        ⟨"x", Option.some ⟨Option.none⟩, SvcState.running, 0, 0, false⟩
        0 5).2.2 = WatchOutcome.noRestart) ∧
    ((watch_process ⟨RestartPolicy.onFailure, 3, 10, 300⟩ true
        ⟨"x", Option.some ⟨Option.none⟩, SvcState.running, 0, 0, false⟩
        1 5).2.2 = WatchOutcome.restartScheduled 3) ∧
    ((start_service_begin (watch_process ⟨RestartPolicy.onFailure, 3, 10,
        300⟩ true
        ⟨"x", Option.some ⟨Option.none⟩, SvcState.running, 0, 0, false⟩
        1 5).1).1.state = SvcState.starting) :=
  ⟨(on_failure_restart_amended ⟨RestartPolicy.onFailure, 3, 10, 300⟩
      ⟨"x", Option.some ⟨Option.none⟩, SvcState.running, 0, 0, false⟩
      1 5 rfl).1,
    ((on_failure_restart_amended ⟨RestartPolicy.onFailure, 3, 10, 300⟩
      ⟨"x", Option.some ⟨Option.none⟩, SvcState.running, 0, 0, false⟩
      1 5 rfl).2.1 (by decide) (by decide)).1,
    ((on_failure_restart_amended ⟨RestartPolicy.onFailure, 3, 10, 300⟩
      ⟨"x", Option.some ⟨Option.none⟩, SvcState.running, 0, 0, false⟩
      1 5 rfl).2.1 (by decide) (by decide)).2⟩

/-- C8: stopping a service whose process is alive first emits the
`stopping` transition, sends the graceful terminate signal, then waits up
to the grace period (10 time units); a process that exits within the grace
period is never killed, one that does not is force-killed and then
awaited; in either case a wait confirms the death, the service's recorded
state ends at `Stopped`, and the trace ends with the `stopped`
transition event. -/
theorem stop_service_grace_kill (ps : ProcessState) (h : ProcHandle)
    (eg : Bool) (ec : Int)
    (hproc : ps.process = Option.some h)
    (halive : h.returncode = Option.none) :
    (stop_service ps eg ec).1.state = SvcState.stopped ∧
    (stop_service ps eg ec).2.head? =
      Option.some (TraceItem.ev ⟨"state_change", ps.name,
        Detail.str "stopping"⟩) ∧
    TraceItem.act (StopAction.terminate ps.name) ∈ (stop_service ps eg ec).2 ∧
    (TraceItem.act (StopAction.waitGrace ps.name 10 false) ∈
        (stop_service ps eg ec).2 ∨
      (TraceItem.act (StopAction.kill ps.name) ∈ (stop_service ps eg ec).2 ∧
        TraceItem.act (StopAction.waitConfirm ps.name) ∈
          (stop_service ps eg ec).2)) ∧
    (TraceItem.act (StopAction.kill ps.name) ∈ (stop_service ps eg ec).2 ↔
      eg = false) ∧
    (stop_service ps eg ec).2.getLast? =
      Option.some (TraceItem.ev ⟨"state_change", ps.name,
        Detail.str "stopped"⟩) := by
  cases eg <;>
    refine ⟨?_, ?_, ?_, ?_, ?_, ?_⟩ <;>
      simp [stop_service, hproc, halive, gracePeriod]

/-- C8 witness: a concrete live service that ignores the grace period is
terminated, times out, is killed, is awaited, and still reaches
`Stopped`. -/
theorem stop_service_grace_kill_witness :
    (stop_service ⟨"x", Option.some ⟨Option.none⟩, SvcState.running, 0, 0,
        false⟩ false 137).1.state = SvcState.stopped ∧
    (TraceItem.act (StopAction.kill "x") ∈
      (stop_service ⟨"x", Option.some ⟨Option.none⟩, SvcState.running, 0, 0,
        false⟩ false 137).2) :=
  ⟨(stop_service_grace_kill ⟨"x", Option.some ⟨Option.none⟩,
      SvcState.running, 0, 0, false⟩ ⟨Option.none⟩ false 137 rfl rfl).1,
    (stop_service_grace_kill ⟨"x", Option.some ⟨Option.none⟩,
      SvcState.running, 0, 0, false⟩ ⟨Option.none⟩ false 137 rfl
      rfl).2.2.2.2.1.mpr rfl⟩

/-- Every trace item produced by `_stop_service` concerns the service it
was called for. -/
theorem stop_service_trace_names (ps : ProcessState) (eg : Bool) (ec : Int) :
    ∀ it ∈ (stop_service ps eg ec).2, it.svcName = ps.name := by
  intro it hit
  rcases hp : ps.process with _ | h
  · simp [stop_service, hp] at hit
  · by_cases hr : h.returncode = Option.none
    · cases eg
      · simp [stop_service, hp, hr] at hit
        rcases hit with rfl | rfl | rfl | rfl | rfl | rfl <;> rfl
      · simp [stop_service, hp, hr] at hit
        rcases hit with rfl | rfl | rfl | rfl <;> rfl
    · simp [stop_service, hp, hr] at hit

/-- A trace item of a consecutive run of stops names one of its services. -/
theorem blockTrace_mem {l : List ProcessState} {env : String → Bool × Int}
    {it : TraceItem} (h : it ∈ blockTrace l env) :
    ∃ ps ∈ l, it.svcName = ps.name := by
  rcases List.mem_flatten.mp h with ⟨tr, htr, hit⟩
  rcases List.mem_map.mp htr with ⟨ps, hps, rfl⟩
  exact ⟨ps, hps, stop_service_trace_names ps _ _ it hit⟩

/-- `blockTrace` splits over table segments. -/
theorem blockTrace_append (l₁ l₂ : List ProcessState)
    (env : String → Bool × Int) :
    blockTrace (l₁ ++ l₂) env = blockTrace l₁ env ++ blockTrace l₂ env := by
  simp [blockTrace]

/-- The full `stop_all` trace is the per-service stop traces over the
reversed table. -/
theorem stop_all_trace_eq (sup : Supervisor) (env : String → Bool × Int) :
    (stop_all sup env).2 = blockTrace sup.processes.reverse env := by
  simp [stop_all, blockTrace, List.map_map]
  rfl

/-- A live service's stop trace contains its `stopping` transition event. -/
theorem stop_service_stopping_mem {ps : ProcessState} {h : ProcHandle}
    (eg : Bool) (ec : Int) (hp : ps.process = Option.some h)
    (hr : h.returncode = Option.none) :
    TraceItem.ev ⟨"state_change", ps.name, Detail.str "stopping"⟩ ∈
      (stop_service ps eg ec).2 := by
  cases eg <;> simp [stop_service, hp, hr]

/-- A live service's stop trace contains its `stopped` transition event. -/
theorem stop_service_stopped_mem {ps : ProcessState} {h : ProcHandle}
    (eg : Bool) (ec : Int) (hp : ps.process = Option.some h)
    (hr : h.returncode = Option.none) :
    TraceItem.ev ⟨"state_change", ps.name, Detail.str "stopped"⟩ ∈
      (stop_service ps eg ec).2 := by
  cases eg <;> simp [stop_service, hp, hr]

/-- A member of a segment's stop run is in the block trace of that run. -/
theorem mem_blockTrace_of_mem {l : List ProcessState}
    {env : String → Bool × Int} {ps : ProcessState} {it : TraceItem}
    (hps : ps ∈ l)
    (hit : it ∈ (stop_service ps (env ps.name).1 (env ps.name).2).2) :
    it ∈ blockTrace l env :=
  List.mem_flatten.mpr
    ⟨(stop_service ps (env ps.name).1 (env ps.name).2).2,
      List.mem_map.mpr ⟨ps, hps, rfl⟩, hit⟩

/-- C7: `stop_all` processes the table in exactly the reverse of start
(insertion) order, strictly sequentially.  For any two services `x`
started before `y` (the table splits as `pre ++ x :: mid ++ y :: post`),
the shutdown trace splits into a first part containing every trace item
of `y` (including, when `y`'s process is alive, its `stopped` transition)
and none of `x`'s, followed by a second part containing every item of `x`
(including, when alive, its initial `stopping` transition) and none of
`y`'s: the later-started service completes its whole stop sequence before
the earlier-started one begins. -/
theorem stop_all_reverse_sequential (sup : Supervisor)
    (env : String → Bool × Int) (pre mid post : List ProcessState)
    (x y : ProcessState)
    (hsplit : sup.processes = pre ++ x :: mid ++ y :: post)
    (hnodup : (sup.processes.map (fun ps => ps.name)).Nodup) :
    (stop_all sup env).2 =
      blockTrace (post.reverse ++ [y]) env ++
        blockTrace (mid.reverse ++ [x] ++ pre.reverse) env ∧
    (∀ it ∈ blockTrace (post.reverse ++ [y]) env, it.svcName ≠ x.name) ∧
    (∀ it ∈ blockTrace (mid.reverse ++ [x] ++ pre.reverse) env,
      it.svcName ≠ y.name) ∧
    (∀ h, y.process = Option.some h → h.returncode = Option.none →
      TraceItem.ev ⟨"state_change", y.name, Detail.str "stopped"⟩ ∈
        blockTrace (post.reverse ++ [y]) env) ∧
    (∀ h, x.process = Option.some h → h.returncode = Option.none →
      TraceItem.ev ⟨"state_change", x.name, Detail.str "stopping"⟩ ∈
        blockTrace (mid.reverse ++ [x] ++ pre.reverse) env) := by
  rw [hsplit] at hnodup
  simp only [List.map_append, List.map_cons, List.nodup_append,
    List.nodup_cons, List.mem_append, List.mem_cons, List.mem_map,
    List.disjoint_left] at hnodup
  have hB2 := hnodup.2.2
  have hxy : x.name ≠ y.name := by
    intro heq
    exact hB2 (Or.inr (Or.inl rfl)) (Or.inl heq)
  have hxpost : ∀ ps ∈ post, x.name ≠ ps.name := by
    intro ps hps heq
    exact hB2 (Or.inr (Or.inl rfl)) (Or.inr ⟨ps, hps, heq.symm⟩)
  have hymid : ∀ ps ∈ mid, y.name ≠ ps.name := by
    intro ps hps heq
    exact hB2 (Or.inr (Or.inr ⟨ps, hps, rfl⟩)) (Or.inl heq.symm)
  have hypre : ∀ ps ∈ pre, y.name ≠ ps.name := by
    intro ps hps heq
    exact hB2 (Or.inl ⟨ps, hps, rfl⟩) (Or.inl heq.symm)
  refine ⟨?_, ?_, ?_, ?_, ?_⟩
  · rw [stop_all_trace_eq, hsplit, ← blockTrace_append]
    congr 1
    simp
  · intro it hit
    rcases blockTrace_mem hit with ⟨ps, hps, hname⟩
    rw [hname]
    rcases List.mem_append.mp hps with hps | hps
    · exact fun hc => hxpost ps (List.mem_reverse.mp hps) hc.symm
    · rcases List.mem_cons.mp hps with rfl | hc
      · exact fun hc => hxy hc.symm
      · simp at hc
  · intro it hit
    rcases blockTrace_mem hit with ⟨ps, hps, hname⟩
    rw [hname]
    rcases List.mem_append.mp hps with hps | hps
    · rcases List.mem_append.mp hps with hps | hps
      · exact fun hc => hymid ps (List.mem_reverse.mp hps) hc.symm
      · rcases List.mem_cons.mp hps with rfl | hc
        · exact fun hc => hxy hc
        · simp at hc
    · exact fun hc => hypre ps (List.mem_reverse.mp hps) hc.symm
  · intro h hp hr
    exact mem_blockTrace_of_mem (by simp)
      (stop_service_stopped_mem _ _ hp hr)
  · intro h hp hr
    exact mem_blockTrace_of_mem (by simp)
      (stop_service_stopping_mem _ _ hp hr)

/-- C7 witness: in a two-service supervisor that started `a` then `b`
(both alive), the shutdown trace contains `b`'s `stopped` transition
inside the leading part of the split established by the theorem. -/
theorem stop_all_reverse_sequential_witness :
    TraceItem.ev ⟨"state_change", "b", Detail.str "stopped"⟩ ∈
      (stop_all ⟨[⟨"a", Option.some ⟨Option.none⟩, SvcState.running, 0, 0,
          false⟩,
        ⟨"b", Option.some ⟨Option.none⟩, SvcState.running, 0, 0, false⟩],
        true, true⟩ (fun _ => (true, 0))).2 := by
  have h := stop_all_reverse_sequential
    ⟨[⟨"a", Option.some ⟨Option.none⟩, SvcState.running, 0, 0, false⟩,
      ⟨"b", Option.some ⟨Option.none⟩, SvcState.running, 0, 0, false⟩],
      true, true⟩
    (fun _ => (true, 0)) [] [] []
    ⟨"a", Option.some ⟨Option.none⟩, SvcState.running, 0, 0, false⟩
    ⟨"b", Option.some ⟨Option.none⟩, SvcState.running, 0, 0, false⟩
    rfl (by decide)
  rw [h.1]
  exact List.mem_append.mpr (Or.inl (h.2.2.2.1 ⟨Option.none⟩ rfl rfl))

/-- A successful `by_name.get` returns a batch member with the requested
name. -/
theorem byNameGet_eq_some {services : List ServiceDefinition} {name : String}
    {s : ServiceDefinition} (h : byNameGet services name = Option.some s) :
    s ∈ services ∧ s.name = name := by
  unfold byNameGet at h
  refine ⟨List.mem_reverse.mp (List.mem_of_find?_eq_some h), ?_⟩
  have := List.find?_some h
  simpa using this

/-- `by_name.get` succeeds on every name carried by a batch member. -/
theorem byNameGet_isSome {services : List ServiceDefinition} {name : String}
    (h : name ∈ services.map (fun s => s.name)) :
    ∃ s, byNameGet services name = Option.some s := by
  rcases List.mem_map.mp h with ⟨s, hs, rfl⟩
  have hsome : (byNameGet services s.name).isSome := by
    unfold byNameGet
    rw [List.find?_isSome]
    exact ⟨s, List.mem_reverse.mpr hs, by simp⟩
  exact Option.isSome_iff_exists.mp hsome

/-- A descriptor's own name belongs to the traversal universe. -/
theorem name_mem_univ {services : List ServiceDefinition}
    {s : ServiceDefinition} (hs : s ∈ services) :
    s.name ∈ univNames services :=
  List.mem_append.mpr (Or.inl (List.mem_map.mpr ⟨s, hs, rfl⟩))

/-- A declared dependency name belongs to the traversal universe. -/
theorem dep_mem_univ {services : List ServiceDefinition}
    {s : ServiceDefinition} {d : String} (hs : s ∈ services)
    (hd : d ∈ s.dependsOn) : d ∈ univNames services :=
  List.mem_append.mpr (Or.inr (List.mem_flatMap.mpr ⟨s, hs, hd⟩))

/-- A name occurring among the first `i` entries has index below `i`. -/
theorem idx_lt_of_mem_take {l : List String} {a : String} {i : Nat}
    (h : a ∈ l.take i) : idx l a < i := by
  induction l generalizing i with
  | nil => simp at h
  | cons b t ih =>
    cases i with
    | zero => simp at h
    | succ n =>
      rw [List.take_succ_cons] at h
      by_cases hba : b = a
      · simp only [idx, if_pos hba]
        omega
      · rcases List.mem_cons.mp h with h | h
        · exact absurd h.symm hba
        · have h2 := ih h
          simp only [idx, if_neg hba]
          omega

/-- On a duplicate-free list, `idx` inverts `get`. -/
theorem idx_get {l : List String} (hnd : l.Nodup) (j : Nat)
    (hj : j < l.length) : idx l (l.get ⟨j, hj⟩) = j := by
  induction l generalizing j with
  | nil => simp at hj
  | cons b t ih =>
    cases j with
    | zero => simp [idx]
    | succ n =>
      have hb : b ∉ t := (List.nodup_cons.mp hnd).1
      have hn : n < t.length := by simpa using hj
      have hget : (b :: t).get ⟨n + 1, hj⟩ = t.get ⟨n, hn⟩ := rfl
      rw [hget]
      have hne : b ≠ t.get ⟨n, hn⟩ := by
        intro heq
        exact hb (heq ▸ t.get_mem n hn)
      simp only [idx, if_neg hne]
      rw [ih (List.nodup_cons.mp hnd).2 n hn]

/-- Growing the visited list can only shrink the unvisited part of the
universe. -/
theorem unvisited_card_mono {services : List ServiceDefinition}
    {v1 v2 : List String} (h : ∀ x ∈ v1, x ∈ v2) :
    ((univNames services).toFinset \ v2.toFinset).card ≤
      ((univNames services).toFinset \ v1.toFinset).card := by
  apply Finset.card_le_card
  apply Finset.sdiff_subset_sdiff (Finset.Subset.refl _)
  intro x hx
  rw [List.mem_toFinset] at hx ⊢
  exact h x hx

/-- Marking a fresh universe name visited strictly shrinks the unvisited
part of the universe. -/
theorem unvisited_card_cons {services : List ServiceDefinition}
    {vis : List String} {name : String} (hu : name ∈ univNames services)
    (hv : name ∉ vis) :
    ((univNames services).toFinset \ (name :: vis).toFinset).card + 1 =
      ((univNames services).toFinset \ vis.toFinset).card := by
  have hmem : name ∈ (univNames services).toFinset \ vis.toFinset :=
    Finset.mem_sdiff.mpr ⟨List.mem_toFinset.mpr hu,
      fun hc => hv (List.mem_toFinset.mp hc)⟩
  have heq : (univNames services).toFinset \ (name :: vis).toFinset =
      ((univNames services).toFinset \ vis.toFinset).erase name := by
    ext v
    simp only [Finset.mem_sdiff, List.mem_toFinset, List.mem_cons,
      Finset.mem_erase]
    tauto
  rw [heq, Finset.card_erase_of_mem hmem]
  have hpos : 0 < ((univNames services).toFinset \ vis.toFinset).card :=
    Finset.card_pos.mpr ⟨name, hmem⟩
  omega

/-- Contract of one `visit` call: on a closed, acyclic batch, with fuel
strictly dominating the unvisited universe and every grey name reaching
the target through dependency edges, the call satisfies `VisitOut` — in
particular the fuel-exhaustion branch is unreachable. -/
theorem visit_ok (services : List ServiceDefinition)
    (hclosed : ∀ s ∈ services, ∀ d ∈ s.dependsOn,
      d ∈ services.map (fun s => s.name))
    (hacyc : ∀ a, ¬ Relation.TransGen (depEdge services) a a) :
    ∀ (fuel : Nat) (name : String) (st : DfsState),
      ((univNames services).toFinset \ st.visited.toFinset).card < fuel →
      name ∈ univNames services →
      DfsInv services st →
      (∀ g, grey st g → Relation.TransGen (depEdge services) g name) →
      VisitOut services name st (visit services fuel name st) := by
  intro fuel
  induction fuel with
  | zero => intro name st hfuel _ _ _; omega
  | succ n ih =>
    intro name st hfuel hname hinv hgrey
    by_cases hvis : name ∈ st.visited
    · have heq : visit services (n + 1) name st = st := by
        simp [visit, hvis]
      rw [heq]
      refine ⟨fun v hv => hv, ⟨[], by simp⟩, fun v => Iff.rfl, ?_, hinv⟩
      by_cases hres : name ∈ resultNames st
      · exact hres
      · exact absurd (hgrey name ⟨hvis, hres⟩) (hacyc name)
    · have hnameS : name ∈ services.map (fun s => s.name) := by
        rcases List.mem_append.mp hname with h | h
        · exact h
        · rcases List.mem_flatMap.mp h with ⟨s, hs, hd⟩
          exact hclosed s hs name hd
      rcases byNameGet_isSome hnameS with ⟨svc, hsvc⟩
      rcases byNameGet_eq_some hsvc with ⟨hsvcmem, hsvcname⟩
      have hnres : name ∉ resultNames st :=
        fun h => hvis (hinv.res_sub_vis name h)
      have heq : visit services (n + 1) name st =
          ⟨(svc.dependsOn.foldl (fun s d => visit services n d s)
              ⟨name :: st.visited, st.result⟩).visited,
            (svc.dependsOn.foldl (fun s d => visit services n d s)
              ⟨name :: st.visited, st.result⟩).result ++ [svc]⟩ := by
        simp [visit, hvis, hsvc]
      have hinv1 : DfsInv services ⟨name :: st.visited, st.result⟩ :=
        ⟨fun m hm => List.mem_cons_of_mem _ (hinv.res_sub_vis m hm),
          hinv.topo, hinv.nodupNames, hinv.res_mem⟩
      have hgrey1 : ∀ v, grey ⟨name :: st.visited, st.result⟩ v ↔
          (v = name ∨ grey st v) := by
        intro v
        constructor
        · rintro ⟨hv, hr⟩
          rcases List.mem_cons.mp hv with rfl | hv
          · exact Or.inl rfl
          · exact Or.inr ⟨hv, hr⟩
        · rintro (rfl | ⟨hv, hr⟩)
          · exact ⟨List.mem_cons_self _ _, hnres⟩
          · exact ⟨List.mem_cons_of_mem _ hv, hr⟩
      have hfuel1 : ((univNames services).toFinset \
          (DfsState.mk (name :: st.visited) st.result).visited.toFinset).card
            < n := by
        have h2 := @unvisited_card_cons services st.visited name hname hvis
        have h3 : (DfsState.mk (name :: st.visited) st.result).visited =
          name :: st.visited := rfl
        rw [h3]
        omega
      have hfold : ∀ (deps : List String) (stc : DfsState),
          (∀ d ∈ deps, d ∈ svc.dependsOn) →
          ((univNames services).toFinset \ stc.visited.toFinset).card < n →
          DfsInv services stc →
          (∀ g, grey stc g →
            g = name ∨ Relation.TransGen (depEdge services) g name) →
          (∀ v ∈ stc.visited,
            v ∈ (deps.foldl (fun s d => visit services n d s) stc).visited) ∧
          (∃ ext, (deps.foldl (fun s d => visit services n d s) stc).result =
            stc.result ++ ext) ∧
          (∀ v, grey (deps.foldl (fun s d => visit services n d s) stc) v ↔
            grey stc v) ∧
          DfsInv services (deps.foldl (fun s d => visit services n d s) stc) ∧
          (∀ d ∈ deps, d ∈ resultNames
            (deps.foldl (fun s d => visit services n d s) stc)) := by
        intro deps
        induction deps with
        | nil =>
          intro stc _ _ hinvc _
          exact ⟨fun v hv => hv, ⟨[], by simp⟩, fun v => Iff.rfl, hinvc,
            by simp⟩
        | cons d ds ihd =>
          intro stc hdeps hfc hinvc hgc
          have hdsvc : d ∈ svc.dependsOn := hdeps d (List.mem_cons_self d ds)
          have hedge : depEdge services name d :=
            ⟨svc, hsvcmem, hsvcname, hdsvc⟩
          have hvout := ih d stc hfc (dep_mem_univ hsvcmem hdsvc) hinvc
            (fun g hg => by
              rcases hgc g hg with rfl | htg
              · exact Relation.TransGen.single hedge
              · exact Relation.TransGen.tail htg hedge)
          have hrest := ihd (visit services n d stc)
            (fun d2 hd2 => hdeps d2 (List.mem_cons_of_mem d hd2))
            (lt_of_le_of_lt (unvisited_card_mono hvout.vis_mono) hfc)
            hvout.inv
            (fun g hg => hgc g ((hvout.grey_iff g).mp hg))
          have hstep : (d :: ds).foldl (fun s d => visit services n d s) stc =
              ds.foldl (fun s d => visit services n d s)
                (visit services n d stc) := rfl
          rw [hstep]
          refine ⟨?_, ?_, ?_, hrest.2.2.2.1, ?_⟩
          · exact fun v hv => hrest.1 v (hvout.vis_mono v hv)
          · rcases hvout.res_ext with ⟨e1, he1⟩
            rcases hrest.2.1 with ⟨e2, he2⟩
            exact ⟨e1 ++ e2, by rw [he2, he1, List.append_assoc]⟩
          · intro v
            exact (hrest.2.2.1 v).trans (hvout.grey_iff v)
          · intro d2 hd2
            rcases List.mem_cons.mp hd2 with rfl | hd2
            · rcases hrest.2.1 with ⟨e2, he2⟩
              have hpl := hvout.placed
              simp only [resultNames] at hpl ⊢
              rw [he2, List.map_append]
              exact List.mem_append.mpr (Or.inl hpl)
            · exact hrest.2.2.2.2 d2 hd2
      have hf := hfold svc.dependsOn ⟨name :: st.visited, st.result⟩
        (fun d hd => hd) hfuel1 hinv1
        (fun g hg => ((hgrey1 g).mp hg).imp (fun h => h)
          (fun h2 => hgrey g h2))
      rw [heq]
      rcases hf with ⟨hf1, ⟨ext, hext⟩, hf3, hf4, hf5⟩
      have hng : grey (svc.dependsOn.foldl (fun s d => visit services n d s)
          ⟨name :: st.visited, st.result⟩) name :=
        (hf3 name).mpr ((hgrey1 name).mpr (Or.inl rfl))
      have hresN : resultNames ⟨(svc.dependsOn.foldl
            (fun s d => visit services n d s)
            ⟨name :: st.visited, st.result⟩).visited,
          (svc.dependsOn.foldl (fun s d => visit services n d s)
            ⟨name :: st.visited, st.result⟩).result ++ [svc]⟩ =
          resultNames (svc.dependsOn.foldl (fun s d => visit services n d s)
            ⟨name :: st.visited, st.result⟩) ++ [name] := by
        simp [resultNames, hsvcname]
      refine ⟨?_, ?_, ?_, ?_, ?_⟩
      · exact fun v hv => hf1 v (List.mem_cons_of_mem _ hv)
      · exact ⟨ext ++ [svc], by
          show (svc.dependsOn.foldl (fun s d => visit services n d s)
            ⟨name :: st.visited, st.result⟩).result ++ [svc] =
            st.result ++ (ext ++ [svc])
          rw [hext, List.append_assoc]⟩
      · intro v
        constructor
        · rintro ⟨hv, hr⟩
          rw [hresN] at hr
          have hr2 : v ∉ resultNames (svc.dependsOn.foldl
              (fun s d => visit services n d s)
              ⟨name :: st.visited, st.result⟩) ∧ v ≠ name := by
            constructor
            · exact fun hc => hr (List.mem_append.mpr (Or.inl hc))
            · exact fun hc => hr (List.mem_append.mpr (Or.inr (by simp [hc])))
          have hg2 : grey (svc.dependsOn.foldl
              (fun s d => visit services n d s)
              ⟨name :: st.visited, st.result⟩) v := ⟨hv, hr2.1⟩
          rcases (hgrey1 v).mp ((hf3 v).mp hg2) with rfl | hgv
          · exact absurd rfl hr2.2
          · exact hgv
        · rintro ⟨hv, hr⟩
          have hvne : v ≠ name := fun hc => hvis (hc ▸ hv)
          have hg1 : grey ⟨name :: st.visited, st.result⟩ v :=
            (hgrey1 v).mpr (Or.inr ⟨hv, hr⟩)
          have hg2 := (hf3 v).mpr hg1
          refine ⟨hg2.1, ?_⟩
          rw [hresN]
          intro hc
          rcases List.mem_append.mp hc with hc | hc
          · exact hg2.2 hc
          · exact hvne (by simpa using hc)
      · rw [hresN]
        exact List.mem_append.mpr (Or.inr (by simp))
      · refine ⟨?_, ?_, ?_, ?_⟩
        · intro m hm
          rw [hresN] at hm
          rcases List.mem_append.mp hm with hm | hm
          · exact hf4.res_sub_vis m hm
          · have hm2 : m = name := by simpa using hm
            exact hm2 ▸ hf1 name (List.mem_cons_self _ _)
        · intro i hi d hd
          have hlen : i < (svc.dependsOn.foldl
              (fun s d => visit services n d s)
              ⟨name :: st.visited, st.result⟩).result.length + 1 := by
            simpa using hi
          by_cases hlt : i < (svc.dependsOn.foldl
              (fun s d => visit services n d s)
              ⟨name :: st.visited, st.result⟩).result.length
          · rw [List.get_append i hlt] at hd
            rw [List.take_append_of_le_length (le_of_lt hlt)]
            exact hf4.topo i hlt d hd
          · have hieq : i = (svc.dependsOn.foldl
                (fun s d => visit services n d s)
                ⟨name :: st.visited, st.result⟩).result.length := by omega
            subst hieq
            have hgeteq : ((svc.dependsOn.foldl
                (fun s d => visit services n d s)
                ⟨name :: st.visited, st.result⟩).result ++ [svc]).get
                ⟨(svc.dependsOn.foldl (fun s d => visit services n d s)
                  ⟨name :: st.visited, st.result⟩).result.length, hi⟩ =
                svc := by
              rw [List.get_append_right _ _ (le_refl _)]
              all_goals simp
            rw [hgeteq] at hd
            rw [List.take_left]
            exact hf5 d hd
        · rw [hresN]
          apply List.Nodup.append hf4.nodupNames (List.nodup_singleton name)
          intro v hv1 hv2
          rw [List.mem_singleton] at hv2
          exact hng.2 (hv2 ▸ hv1)
        · intro x hx
          rcases List.mem_append.mp hx with hx | hx
          · exact hf4.res_mem x hx
          · have hx2 : x = svc := by simpa using hx
            exact hx2 ▸ hsvcmem

/-- The top-level loop of `_dependency_sort` over any sublist of the batch
preserves the invariant and the absence of grey names, extends the result,
and places every processed service. -/
theorem sort_fold_ok (services : List ServiceDefinition)
    (hclosed : ∀ s ∈ services, ∀ d ∈ s.dependsOn,
      d ∈ services.map (fun s => s.name))
    (hacyc : ∀ a, ¬ Relation.TransGen (depEdge services) a a) :
    ∀ (l : List ServiceDefinition) (st : DfsState),
      (∀ s ∈ l, s ∈ services) →
      DfsInv services st →
      (∀ g, ¬ grey st g) →
      DfsInv services (l.foldl
        (fun st s => visit services (dfsFuel services) s.name st) st) ∧
      (∀ g, ¬ grey (l.foldl
        (fun st s => visit services (dfsFuel services) s.name st) st) g) ∧
      (∃ ext, (l.foldl
        (fun st s => visit services (dfsFuel services) s.name st) st).result =
        st.result ++ ext) ∧
      (∀ s ∈ l, s.name ∈ resultNames (l.foldl
        (fun st s => visit services (dfsFuel services) s.name st) st)) := by
  intro l
  induction l with
  | nil =>
    intro st _ hinv hg
    exact ⟨hinv, hg, ⟨[], by simp⟩, by simp⟩
  | cons s ls ihl =>
    intro st hmem hinv hg
    have hfuel : ((univNames services).toFinset \ st.visited.toFinset).card <
        dfsFuel services := by
      have h1 : ((univNames services).toFinset \ st.visited.toFinset).card ≤
          (univNames services).toFinset.card :=
        Finset.card_le_card (Finset.sdiff_subset)
      have h2 := List.toFinset_card_le (univNames services)
      unfold dfsFuel
      omega
    have hvout := visit_ok services hclosed hacyc (dfsFuel services) s.name st
      hfuel (name_mem_univ (hmem s (List.mem_cons_self s ls)))
      hinv (fun g hgg => absurd hgg (hg g))
    have hres := ihl (visit services (dfsFuel services) s.name st)
      (fun t ht => hmem t (List.mem_cons_of_mem s ht))
      hvout.inv
      (fun g hgg => hg g ((hvout.grey_iff g).mp hgg))
    have hstep : (s :: ls).foldl
        (fun st t => visit services (dfsFuel services) t.name st) st =
        ls.foldl (fun st t => visit services (dfsFuel services) t.name st)
          (visit services (dfsFuel services) s.name st) := rfl
    rw [hstep]
    refine ⟨hres.1, hres.2.1, ?_, ?_⟩
    · rcases hvout.res_ext with ⟨e1, he1⟩
      rcases hres.2.2.1 with ⟨e2, he2⟩
      exact ⟨e1 ++ e2, by rw [he2, he1, List.append_assoc]⟩
    · intro t ht
      rcases List.mem_cons.mp ht with rfl | ht
      · rcases hres.2.2.1 with ⟨e2, he2⟩
        have hpl := hvout.placed
        simp only [resultNames] at hpl ⊢
        rw [he2, List.map_append]
        exact List.mem_append.mpr (Or.inl hpl)
      · exact hres.2.2.2 t ht

/-- C2: on a batch with unique names, with every `dependsOn` entry naming
a batch member, and with an acyclic dependency graph, `_dependency_sort`
outputs every descriptor, and every descriptor is placed strictly after
each of its direct and transitive dependencies: for every descriptor `s`
and every `d` reachable from `s.name` through `dependsOn` edges,
`idx d < idx s.name` in the returned order. -/
theorem dependency_sort_topological (services : List ServiceDefinition)
    (hnodup : (services.map (fun s => s.name)).Nodup)
    (hclosed : ∀ s ∈ services, ∀ d ∈ s.dependsOn,
      d ∈ services.map (fun s => s.name))
    (hacyc : ∀ a, ¬ Relation.TransGen (depEdge services) a a) :
    (∀ s ∈ services,
      s.name ∈ (dependency_sort services).map (fun s => s.name)) ∧
    (∀ s ∈ services, ∀ d, Relation.TransGen (depEdge services) s.name d →
      d ∈ (dependency_sort services).map (fun s => s.name) ∧
      idx ((dependency_sort services).map (fun s => s.name)) d <
        idx ((dependency_sort services).map (fun s => s.name)) s.name) := by
  have hinv0 : DfsInv services ⟨[], []⟩ :=
    ⟨by simp [resultNames], fun i hi => absurd hi (by simp),
      by simp [resultNames], by simp⟩
  have hg0 : ∀ g, ¬ grey (⟨[], []⟩ : DfsState) g := by
    rintro g ⟨hv, _⟩
    simp at hv
  have htop := sort_fold_ok services hclosed hacyc services ⟨[], []⟩
    (fun s hs => hs) hinv0 hg0
  have hinvF := htop.1
  have hcomp : ∀ s ∈ services, s.name ∈
      (dependency_sort services).map (fun s => s.name) := htop.2.2.2
  have hedge_idx : ∀ a b, depEdge services a b →
      b ∈ (dependency_sort services).map (fun s => s.name) ∧
      idx ((dependency_sort services).map (fun s => s.name)) b <
        idx ((dependency_sort services).map (fun s => s.name)) a := by
    intro a b hab
    rcases hab with ⟨s, hs, hsa, hbd⟩
    have ha : a ∈ (dependency_sort services).map (fun s => s.name) :=
      hsa ▸ hcomp s hs
    rcases List.mem_iff_get.mp ha with ⟨⟨j, hj⟩, hget⟩
    have hj2 : j < (dependency_sort services).length := by simpa using hj
    have hgx : ((dependency_sort services).map (fun s => s.name)).get
        ⟨j, hj⟩ = ((dependency_sort services).get ⟨j, hj2⟩).name := by
      simp
    have hxa : ((dependency_sort services).get ⟨j, hj2⟩).name = a := by
      rw [← hgx, hget]
    have hxmem : (dependency_sort services).get ⟨j, hj2⟩ ∈ services :=
      hinvF.res_mem _ ((dependency_sort services).get_mem j hj2)
    have hsx : s = (dependency_sort services).get ⟨j, hj2⟩ :=
      List.inj_on_of_nodup_map hnodup hs hxmem (by rw [hsa, hxa])
    have hbd2 : b ∈ ((dependency_sort services).get ⟨j, hj2⟩).dependsOn :=
      hsx ▸ hbd
    have htake := hinvF.topo j hj2 b hbd2
    rw [List.map_take] at htake
    refine ⟨List.mem_of_mem_take htake, ?_⟩
    have hlt : idx ((dependency_sort services).map (fun s => s.name)) b <
        j := idx_lt_of_mem_take htake
    have hidxa : idx ((dependency_sort services).map (fun s => s.name)) a =
        j := by
      rw [← hget]
      exact idx_get hinvF.nodupNames j hj
    omega
  refine ⟨hcomp, ?_⟩
  intro s hs d htg
  induction htg with
  | single h => exact hedge_idx _ _ h
  | tail ht he ihtg =>
    rcases hedge_idx _ _ he with ⟨hm, hlt⟩
    exact ⟨hm, lt_trans hlt ihtg.2⟩

/-- Every dependency edge of the two-descriptor acyclic example batch goes
from `b` to `a`. -/
theorem exW_edge {x y : String}
    (h : depEdge [⟨"a", []⟩, ⟨"b", ["a"]⟩] x y) : x = "b" ∧ y = "a" := by
  rcases h with ⟨s, hs, hsx, hy⟩
  rcases List.mem_cons.mp hs with rfl | hs
  · simp at hy
  · rcases List.mem_cons.mp hs with rfl | hs
    · exact ⟨hsx.symm, by simpa using hy⟩
    · simp at hs

/-- Transitive dependencies of the example batch also only run from `b`
to `a`. -/
theorem exW_tg {x y : String}
    (h : Relation.TransGen (depEdge [⟨"a", []⟩, ⟨"b", ["a"]⟩]) x y) :
    x = "b" ∧ y = "a" := by
  induction h with
  | single h => exact exW_edge h
  | tail _ he ihtg => exact ⟨ihtg.1, (exW_edge he).2⟩

/-- The example batch is acyclic. -/
theorem exW_acyclic :
    ∀ a, ¬ Relation.TransGen (depEdge [⟨"a", []⟩, ⟨"b", ["a"]⟩]) a a := by
  intro a h
  rcases exW_tg h with ⟨h1, h2⟩
  exact absurd (h1.symm.trans h2) (by decide)

/-- C2 witness: on the concrete acyclic batch `a ← b`, the resolver places
`a` strictly before the descriptor `b` that depends on it. -/
theorem dependency_sort_topological_witness :
    idx ((dependency_sort [⟨"a", []⟩, ⟨"b", ["a"]⟩]).map
        (fun s => s.name)) "a" <
      idx ((dependency_sort [⟨"a", []⟩, ⟨"b", ["a"]⟩]).map
        (fun s => s.name)) "b" :=
  ((dependency_sort_topological [⟨"a", []⟩, ⟨"b", ["a"]⟩] (by decide)
      (by decide) exW_acyclic).2
    ⟨"b", ["a"]⟩ (by decide) "a"
    (Relation.TransGen.single
      ⟨⟨"b", ["a"]⟩, by decide, rfl, by decide⟩)).2

end RNM
